import Mathlib

set_option autoImplicit false

/-!  Shallow embedding of the preemie-weight repository's core data loading
(src/plot_weight.py and src/add_weight.py).  File contents are modelled as
`List Char`; Python `datetime` values as day counts in the proleptic
Gregorian calendar (`Int` for parsed log dates, `ℚ` for Fenton curve dates,
which may be fractional); Python `float` weights as `ℚ`.  -/

/-- Decimal digits of a string read as a natural number; models Python `int`
on an all-digit string (and digit groups inside `float` literals). -/
def digitsToNat (s : List Char) : Nat :=
  s.foldl (fun a c => 10 * a + (c.toNat - 48)) 0

/-- Check that every character is an ASCII decimal digit. -/
def allDigits (s : List Char) : Bool := s.all Char.isDigit

/-- Python `str.isdigit` restricted to ASCII input: nonempty and all
decimal digits. -/
def isdigit (s : List Char) : Bool := !s.isEmpty && allDigits s

/-- Model of `validate_weight` (src/add_weight.py lines 29-35): accept iff
`weight_str.isdigit()` holds and `int(weight_str) > 0`. -/
def validate_weight (s : List Char) : Bool :=
  isdigit s && decide (0 < digitsToNat s)

/-- Split a character list on a separator character; the result always has
one group more than there are separators. -/
def splitOnChar (sep : Char) : List Char → List (List Char)
  | [] => [[]]
  | c :: rest =>
    match splitOnChar sep rest with
    | [] => [[]]
    | g :: gs => if c = sep then [] :: g :: gs else (c :: g) :: gs

/-- Universal-newline translation performed by Python text-mode reading
(`open(path, 'r')` with default `newline=None`): CRLF and lone CR both
become LF. -/
def normalizeNewlines : List Char → List Char
  | [] => []
  | '\r' :: '\n' :: rest => '\n' :: normalizeNewlines rest
  | '\r' :: rest => '\n' :: normalizeNewlines rest
  | c :: rest => c :: normalizeNewlines rest

/-- Lines produced by iterating a Python text file: split the
newline-normalized content on LF; a trailing newline does not produce a
final empty line. -/
def fileLines (content : List Char) : List (List Char) :=
  let ls := splitOnChar '\n' (normalizeNewlines content)
  if ls.getLast? = some [] then ls.dropLast else ls

/-- Parser states of the CPython `csv` reader state machine for the default
dialect, as relevant after universal-newline translation (no escape
character configured, so the escape states cannot be reached). -/
inductive CsvState
  | startRecord
  | startField
  | inField
  | inQuoted
  | quoteInQuoted
  deriving DecidableEq

/-- One step of the CPython `csv` reader state machine (default dialect:
delimiter `,`, quote character `"` with `doublequote=True`, no escape
character, non-strict mode) on one character of the newline-normalized
stream.  Returns the records completed by this character (none or one), the
next state, and the new current-field and current-record accumulators.  A
quote at field start opens a quoted field in which delimiters and newlines
are literal data; a doubled quote inside a quoted field denotes one literal
quote; after a closing quote a delimiter or newline ends the field or
record, and any other character is appended with the field continuing
unquoted (non-strict behavior); a quote inside an unquoted field is
literal.  An empty line yields an empty record. -/
def csvStep (s : CsvState) (f : List Char) (r : List (List Char)) (c : Char) :
    List (List (List Char)) × CsvState × List Char × List (List Char) :=
  match s with
  | .startRecord =>
    if c = '\n' then ([[]], .startRecord, [], [])
    else if c = '"' then ([], .inQuoted, [], [])
    else if c = ',' then ([], .startField, [], [[]])
    else ([], .inField, [c], [])
  | .startField =>
    if c = '"' then ([], .inQuoted, [], r)
    else if c = ',' then ([], .startField, [], r ++ [[]])
    else if c = '\n' then ([r ++ [[]]], .startRecord, [], [])
    else ([], .inField, [c], r)
  | .inField =>
    if c = ',' then ([], .startField, [], r ++ [f])
    else if c = '\n' then ([r ++ [f]], .startRecord, [], [])
    else ([], .inField, f ++ [c], r)
  | .inQuoted =>
    if c = '"' then ([], .quoteInQuoted, f, r)
    else ([], .inQuoted, f ++ [c], r)
  | .quoteInQuoted =>
    if c = '"' then ([], .inQuoted, f ++ ['"'], r)
    else if c = ',' then ([], .startField, [], r ++ [f])
    else if c = '\n' then ([r ++ [f]], .startRecord, [], [])
    else ([], .inField, f ++ [c], r)

/-- Record pending at end of input: exhausting the reader inside a field
(also inside an unterminated quoted field) yields the partial record; at a
record boundary nothing more is emitted. -/
def csvFlush : CsvState → List Char → List (List Char) → List (List (List Char))
  | .startRecord, _, _ => []
  | _, f, r => [r ++ [f]]

/-- Run of the csv reader state machine over a character stream: every
record it yields, including the final flush at end of input. -/
def csvParseAux : CsvState → List Char → List (List Char) → List Char →
    List (List (List Char))
  | s, f, r, [] => csvFlush s f r
  | s, f, r, c :: rest =>
    (csvStep s f r c).1 ++
      csvParseAux (csvStep s f r c).2.1 (csvStep s f r c).2.2.1
        (csvStep s f r c).2.2.2 rest

/-- Final machine configuration after consuming a character stream. -/
def csvRun : CsvState → List Char → List (List Char) → List Char →
    CsvState × List Char × List (List Char)
  | s, f, r, [] => (s, f, r)
  | s, f, r, c :: rest =>
    csvRun (csvStep s f r c).2.1 (csvStep s f r c).2.2.1
      (csvStep s f r c).2.2.2 rest

/-- Rows `csv.reader` yields over the whole file contents as read in Python
text mode (universal newlines applied first), starting at a record
boundary. -/
def csvRows (content : List Char) : List (List (List Char)) :=
  csvParseAux CsvState.startRecord [] [] (normalizeNewlines content)

/-- Unsigned part of Python `float` parsing: digits with an optional
decimal point, at least one digit overall. -/
def parseUnsignedFloat (s : List Char) : Option ℚ :=
  match splitOnChar '.' s with
  | [ip] => if !ip.isEmpty && allDigits ip then some (digitsToNat ip) else none
  | [ip, fp] =>
    if (!ip.isEmpty || !fp.isEmpty) && allDigits ip && allDigits fp then
      some ((digitsToNat ip : ℚ) + (digitsToNat fp : ℚ) / (10 : ℚ) ^ fp.length)
    else none
  | _ => none

/-- Model of Python `float()` on plain decimal literals: optional sign,
digits with an optional decimal point.  Exotic accepted forms (exponents,
inf/nan, underscores, surrounding whitespace) are not modelled; no claim
depends on them. -/
def parseFloat (s : List Char) : Option ℚ :=
  match s with
  | '-' :: r => (parseUnsignedFloat r).map (fun q => -q)
  | '+' :: r => parseUnsignedFloat r
  | r => parseUnsignedFloat r

/-- Gregorian leap-year rule. -/
def isLeapYear (y : Nat) : Bool := y % 4 = 0 && (y % 100 ≠ 0 || y % 400 = 0)

/-- Number of days in a month of the Gregorian calendar. -/
def daysInMonth (y m : Nat) : Nat :=
  if m = 2 then (if isLeapYear y then 29 else 28)
  else if m = 4 || m = 6 || m = 9 || m = 11 then 30
  else 31

/-- Day number of a proleptic Gregorian date, as days since 1970-01-01
(standard days-from-civil computation). -/
def daysFromCivil (y m d : Nat) : Int :=
  let yAdj := if m ≤ 2 then y - 1 else y
  let era := yAdj / 400
  let yoe := yAdj % 400
  let mp := (m + 9) % 12
  let doy := (153 * mp + 2) / 5 + d - 1
  let doe := yoe * 365 + yoe / 4 - yoe / 100 + doy
  (era * 146097 + doe : Int) - 719468

/-- Model of `datetime.strptime(s, '%Y-%m-%d')` followed by use of the
resulting date: a four-digit year, a one- or two-digit month and day, each
field all digits, with the calendar validation the `datetime` constructor
performs.  Returns the day number of the date. -/
def parseDate (s : List Char) : Option Int :=
  match splitOnChar '-' s with
  | [ys, ms, ds] =>
    if ys.length = 4 && allDigits ys
       && (ms.length = 1 || ms.length = 2) && allDigits ms
       && (ds.length = 1 || ds.length = 2) && allDigits ds then
      let y := digitsToNat ys
      let m := digitsToNat ms
      let d := digitsToNat ds
      if 1 ≤ y && 1 ≤ m && m ≤ 12 && 1 ≤ d && d ≤ daysInMonth y m
      then some (daysFromCivil y m d) else none
    else none
  | _ => none

/-- Per-row parse performed by the loop body of `load_data`
(src/plot_weight.py lines 42-51): a row contributes a sample iff it has
exactly two fields, the first parses as a `%Y-%m-%d` date and the second as
a float. -/
def parseRow (row : List (List Char)) : Option (Int × ℚ) :=
  match row with
  | [dateStr, weightStr] =>
    match parseDate dateStr with
    | none => none
    | some d =>
      match parseFloat weightStr with
      | none => none
      | some w => some (d, w)
  | _ => none

/-- Row loop of `load_data`: dates and weights of valid rows appended in
row order, invalid rows skipped. -/
def loadRows : List (List (List Char)) → List Int × List ℚ
  | [] => ([], [])
  | row :: rest =>
    match parseRow row with
    | some dw => (dw.1 :: (loadRows rest).1, dw.2 :: (loadRows rest).2)
    | none => loadRows rest

/-- Model of `load_data` (src/plot_weight.py lines 24-60) applied to the
contents of an existing file: parse each CSV row, skipping invalid ones; if
no valid row was found, return the empty pair (the code's `if not dates`
branch). -/
def load_data (content : List Char) : List Int × List ℚ :=
  let dw := loadRows (csvRows content)
  if dw.1 = [] then ([], []) else dw

/-- Model of `load_data` including its `FileNotFoundError` handler: the
store is `none` when the file is absent, which yields the empty pair. -/
def loadStore : Option (List Char) → List Int × List ℚ
  | none => ([], [])
  | some content => load_data content

/-- Per-row conversion of the `load_fenton_data` loop (src/plot_weight.py
lines 80-89): both fields must parse as floats; the weight is converted
from kilograms to grams by multiplying by 1000 and the gestational age to
an absolute date `due_date - timedelta(weeks = 40 - ga)`, where
`timedelta(weeks = w)` is `7 * w` days. -/
def fentonRow (due : ℚ) (row : List (List Char)) : Option (ℚ × ℚ) :=
  match row with
  | [gaStr, wStr] =>
    match parseFloat gaStr with
    | none => none
    | some ga =>
      match parseFloat wStr with
      | none => none
      | some kg => some (due - (40 - ga) * 7, 1000 * kg)
  | _ => none

/-- Row loop of `load_fenton_data` over one table. -/
def fentonRows (due : ℚ) : List (List (List Char)) → List ℚ × List ℚ
  | [] => ([], [])
  | row :: rest =>
    match fentonRow due row with
    | some dw => (dw.1 :: (fentonRows due rest).1, dw.2 :: (fentonRows due rest).2)
    | none => fentonRows due rest

/-- Curve assembled from the contents of one percentile table. -/
def load_fenton_table (due : ℚ) (content : List Char) : List ℚ × List ℚ :=
  fentonRows due (csvRows content)

/-- Fixed percentile labels, in the order the loop visits them. -/
def percentiles : List String := ["3%", "10%", "50%", "90%", "97%"]

/-- Model of `load_fenton_data` (src/plot_weight.py lines 62-93): the file
system is a partial map from percentile label to table contents; a missing
table leaves its label out of the result (the `FileNotFoundError` handler),
a present one contributes its curve; insertion order of the dict is the
fixed label order. -/
def load_fenton_data (tables : String → Option (List Char)) (due : ℚ) :
    List (String × (List ℚ × List ℚ)) :=
  percentiles.filterMap (fun p =>
    match tables p with
    | some c => some (p, load_fenton_table due c)
    | none => none)

/-- Python `min` over a nonempty list; the `[]` case is unreachable in the
code (Python raises there). -/
def listMin : List ℚ → ℚ
  | [] => 0
  | x :: xs => xs.foldl min x

/-- Python `max` over a nonempty list; the `[]` case is unreachable in the
code (Python raises there). -/
def listMax : List ℚ → ℚ
  | [] => 0
  | x :: xs => xs.foldl max x

/-- Model of `compute_limits` (src/plot_weight.py lines 104-117). -/
def compute_limits (values : List ℚ) (margin_percent : ℚ) : ℚ × ℚ :=
  let range_value := listMax values - listMin values
  let margin := range_value * margin_percent
  (listMin values - margin, listMax values + margin)

/-- Line written by `csv.writer(f).writerow([date, weight])` for fields
without special characters: comma-joined fields plus the writer's default
CRLF line terminator (the file is opened with `newline=''`, so the CRLF
reaches the file untranslated). -/
def csvLine (date weight : List Char) : List Char :=
  date ++ ',' :: weight ++ ['\r', '\n']

/-- Model of the append in `main` of src/add_weight.py (lines 75-77): the
file is opened in append mode, so the encoded line is concatenated to the
existing contents. -/
def append_store (content date weight : List Char) : List Char :=
  content ++ csvLine date weight

/-!  Helper lemmas about splitting and newline normalization.  -/

theorem splitOnChar_ne_nil (sep : Char) (s : List Char) : splitOnChar sep s ≠ [] := by
  induction s with
  | nil => simp [splitOnChar]
  | cons c rest ih =>
    cases h : splitOnChar sep rest with
    | nil => exact absurd h ih
    | cons g gs =>
      simp only [splitOnChar, h]
      split <;> simp

theorem splitOnChar_no_sep (sep : Char) (s : List Char)
    (h : ∀ c ∈ s, ¬ c = sep) : splitOnChar sep s = [s] := by
  induction s with
  | nil => simp [splitOnChar]
  | cons c rest ih =>
    have hc : ¬ c = sep := h c (by simp)
    have hrest := ih (fun x hx => h x (by simp [hx]))
    simp [splitOnChar, hrest, hc]

theorem splitOnChar_append (sep : Char) (a b : List Char) :
    splitOnChar sep (a ++ sep :: b) = splitOnChar sep a ++ splitOnChar sep b := by
  induction a with
  | nil =>
    cases hb : splitOnChar sep b with
    | nil => exact absurd hb (splitOnChar_ne_nil sep b)
    | cons g gs =>
      simp only [List.nil_append, splitOnChar, hb]
      simp [splitOnChar]
  | cons c a2 ih =>
    cases ha : splitOnChar sep a2 with
    | nil => exact absurd ha (splitOnChar_ne_nil sep a2)
    | cons g2 gs2 =>
      cases hb : splitOnChar sep (a2 ++ sep :: b) with
      | nil => exact absurd hb (splitOnChar_ne_nil sep _)
      | cons g gs =>
        rw [ha, hb] at ih
        simp only [List.cons_append] at ih
        injection ih with h1 h2
        show splitOnChar sep (c :: (a2 ++ sep :: b)) = splitOnChar sep (c :: a2) ++ splitOnChar sep b
        simp only [splitOnChar, hb, ha]
        by_cases hc : c = sep
        · rw [if_pos hc, if_pos hc, h1, h2]
          simp
        · rw [if_neg hc, if_neg hc, h1, h2]
          simp

theorem mem_of_splitOnChar (sep : Char) (s : List Char) (c : Char) (h : c ∈ s) :
    c = sep ∨ ∃ p ∈ splitOnChar sep s, c ∈ p := by
  induction s with
  | nil => cases h
  | cons a rest ih =>
    cases hr : splitOnChar sep rest with
    | nil => exact absurd hr (splitOnChar_ne_nil sep _)
    | cons g gs =>
      rcases List.mem_cons.mp h with hca | hcr
      · subst hca
        by_cases ha : c = sep
        · exact Or.inl ha
        · refine Or.inr ⟨c :: g, ?_, by simp⟩
          simp [splitOnChar, hr, ha]
      · rcases ih hcr with hsep | ⟨p, hp, hcp⟩
        · exact Or.inl hsep
        · rw [hr] at hp
          by_cases ha : a = sep
          · refine Or.inr ⟨p, ?_, hcp⟩
            simp only [splitOnChar, hr, if_pos ha]
            simp [List.mem_cons.mp hp]
          · rcases List.mem_cons.mp hp with hpg | hpgs
            · refine Or.inr ⟨a :: g, ?_, by simp [hpg ▸ hcp]⟩
              simp [splitOnChar, hr, ha]
            · refine Or.inr ⟨p, ?_, hcp⟩
              simp [splitOnChar, hr, ha, hpgs]

theorem normalizeNewlines_cons (c : Char) (rest : List Char) (h : ¬ c = '\r') :
    normalizeNewlines (c :: rest) = c :: normalizeNewlines rest := by
  cases rest with
  | nil => simp [normalizeNewlines, h]
  | cons c2 r2 => simp [normalizeNewlines, h]

theorem normalizeNewlines_cr (rest : List Char) (h : rest.head? ≠ some '\n') :
    normalizeNewlines ('\r' :: rest) = '\n' :: normalizeNewlines rest := by
  cases rest with
  | nil => simp [normalizeNewlines]
  | cons c2 r2 =>
    have h2 : ¬ c2 = '\n' := by simpa using h
    simp [normalizeNewlines, h2]

theorem normalizeNewlines_ne_nil (s : List Char) (h : s ≠ []) :
    normalizeNewlines s ≠ [] := by
  cases s with
  | nil => exact absurd rfl h
  | cons c rest =>
    by_cases hc : c = '\r'
    · subst hc
      cases rest with
      | nil => simp [normalizeNewlines]
      | cons c2 r2 =>
        by_cases h2 : c2 = '\n'
        · subst h2; simp [normalizeNewlines]
        · rw [normalizeNewlines_cr _ (by simp [h2])]; simp
    · rw [normalizeNewlines_cons c rest hc]; simp

theorem normalizeNewlines_of_no_cr (s : List Char) (h : ∀ c ∈ s, ¬ c = '\r') :
    normalizeNewlines s = s := by
  induction s with
  | nil => rfl
  | cons c rest ih =>
    rw [normalizeNewlines_cons c rest (h c (by simp)),
        ih (fun x hx => h x (by simp [hx]))]

theorem normalizeNewlines_append (a b : List Char) (hb : b.head? ≠ some '\n') :
    normalizeNewlines (a ++ b) = normalizeNewlines a ++ normalizeNewlines b := by
  suffices H : ∀ (n : Nat) (a : List Char), a.length ≤ n →
      normalizeNewlines (a ++ b) = normalizeNewlines a ++ normalizeNewlines b from
    H a.length a le_rfl
  intro n
  induction n with
  | zero =>
    intro a ha
    have : a = [] := List.eq_nil_of_length_eq_zero (Nat.le_zero.mp ha)
    subst this
    simp [normalizeNewlines]
  | succ n ih =>
    intro a ha
    cases a with
    | nil => simp [normalizeNewlines]
    | cons c rest =>
      by_cases hc : c = '\r'
      · subst hc
        cases rest with
        | nil =>
          rw [List.cons_append, List.nil_append, normalizeNewlines_cr b hb]
          simp [normalizeNewlines]
        | cons c2 r2 =>
          by_cases h2 : c2 = '\n'
          · subst h2
            have hr2 := ih r2 (by simp only [List.length_cons] at ha ⊢; omega)
            show normalizeNewlines ('\r' :: '\n' :: (r2 ++ b)) = _
            simp only [normalizeNewlines, hr2]
            simp
          · have hrest := ih (c2 :: r2) (by simp only [List.length_cons] at ha ⊢; omega)
            rw [List.cons_append, normalizeNewlines_cr _ (by simp [h2]),
                normalizeNewlines_cr _ (by simp [h2]), hrest]
            simp
      · have hrest := ih rest (by simp only [List.length_cons] at ha ⊢; omega)
        rw [List.cons_append, normalizeNewlines_cons c _ hc,
            normalizeNewlines_cons c rest hc, hrest]
        simp

theorem getLast?_cons_of_ne_nil {α : Type} (a : α) (l : List α) (h : l ≠ []) :
    (a :: l).getLast? = l.getLast? := by
  cases l with
  | nil => exact absurd rfl h
  | cons b l2 => exact List.getLast?_cons_cons

theorem normalizeNewlines_getLast (c : List Char) (x : Char)
    (hx : x = '\n' ∨ x = '\r') :
    (normalizeNewlines (c ++ [x])).getLast? = some '\n' := by
  suffices H : ∀ (n : Nat) (c : List Char), c.length ≤ n →
      (normalizeNewlines (c ++ [x])).getLast? = some '\n' from H c.length c le_rfl
  intro n
  induction n with
  | zero =>
    intro c hc
    have : c = [] := List.eq_nil_of_length_eq_zero (Nat.le_zero.mp hc)
    subst this
    rcases hx with rfl | rfl <;> simp [normalizeNewlines]
  | succ n ih =>
    intro c hc
    cases c with
    | nil => rcases hx with rfl | rfl <;> simp [normalizeNewlines]
    | cons a c2 =>
      by_cases ha : a = '\r'
      · subst ha
        cases c2 with
        | nil =>
          rcases hx with rfl | rfl
          · simp [normalizeNewlines]
          · rw [List.cons_append, List.nil_append,
                normalizeNewlines_cr ['\r'] (by simp)]
            simp [normalizeNewlines]
        | cons b c3 =>
          by_cases hb : b = '\n'
          · subst hb
            have htail := ih c3 (by simp only [List.length_cons] at hc ⊢; omega)
            show (normalizeNewlines ('\r' :: '\n' :: (c3 ++ [x]))).getLast? = _
            simp only [normalizeNewlines]
            rw [getLast?_cons_of_ne_nil _ _
                  (normalizeNewlines_ne_nil _ (by simp))]
            exact htail
          · have htail := ih (b :: c3) (by simp only [List.length_cons] at hc ⊢; omega)
            rw [List.cons_append, normalizeNewlines_cr _ (by simp [hb])]
            rw [getLast?_cons_of_ne_nil _ _
                  (normalizeNewlines_ne_nil _ (by simp))]
            exact htail
      · have htail := ih c2 (by simp only [List.length_cons] at hc ⊢; omega)
        rw [List.cons_append, normalizeNewlines_cons a _ ha]
        rw [getLast?_cons_of_ne_nil _ _
              (normalizeNewlines_ne_nil _ (by simp))]
        exact htail

theorem splitOnChar_concat_sep (sep : Char) (a : List Char) :
    splitOnChar sep (a ++ [sep]) = splitOnChar sep a ++ [[]] := by
  have h1 : a ++ [sep] = a ++ sep :: [] := rfl
  rw [h1, splitOnChar_append]
  rfl

theorem fileLines_append (content line : List Char)
    (hc : content = [] ∨ content.getLast? = some '\n' ∨ content.getLast? = some '\r')
    (hl : ∀ c ∈ line, ¬ c = '\n' ∧ ¬ c = '\r') :
    fileLines (content ++ (line ++ ['\r', '\n'])) = fileLines content ++ [line] := by
  have hnosep : ∀ c ∈ line, ¬ c = '\n' := fun c h => (hl c h).1
  have hnocr : ∀ c ∈ line, ¬ c = '\r' := fun c h => (hl c h).2
  have hline : splitOnChar '\n' (line ++ ['\n']) = [line, []] := by
    have h1 : line ++ ['\n'] = line ++ '\n' :: [] := rfl
    rw [h1, splitOnChar_append, splitOnChar_no_sep '\n' line hnosep]
    rfl
  have hheadR : (line ++ ['\r', '\n'] : List Char).head? ≠ some '\n' := by
    cases line with
    | nil => simp
    | cons c l => simpa using (hl c (by simp)).1
  have hN : normalizeNewlines (content ++ (line ++ ['\r', '\n'])) =
      normalizeNewlines content ++ (line ++ ['\n']) := by
    rw [normalizeNewlines_append content _ hheadR,
        normalizeNewlines_append line ['\r', '\n'] (by simp),
        normalizeNewlines_of_no_cr line hnocr]
    rfl
  rcases hc with rfl | hc
  · rw [show normalizeNewlines ([] : List Char) = [] from rfl] at hN
    simp only [List.nil_append] at hN ⊢
    simp [fileLines, hN, hline, normalizeNewlines, splitOnChar]
  · have hcne : content ≠ [] := by
      rcases hc with h | h <;> (intro h2; rw [h2] at h; simp at h)
    have hncne : normalizeNewlines content ≠ [] := normalizeNewlines_ne_nil content hcne
    have hxval : content.getLast hcne = '\n' ∨ content.getLast hcne = '\r' := by
      have hg := List.getLast?_eq_getLast content hcne
      rcases hc with h | h
      · left; rw [hg] at h; exact Option.some.inj h
      · right; rw [hg] at h; exact Option.some.inj h
    have hnclast : (normalizeNewlines content).getLast? = some '\n' := by
      have hdecomp := List.dropLast_append_getLast hcne
      calc (normalizeNewlines content).getLast?
          = (normalizeNewlines (content.dropLast ++ [content.getLast hcne])).getLast? := by
            rw [hdecomp]
        _ = some '\n' := normalizeNewlines_getLast _ _ hxval
    have hlastval : (normalizeNewlines content).getLast hncne = '\n' := by
      have hg := List.getLast?_eq_getLast (normalizeNewlines content) hncne
      rw [hg] at hnclast
      exact Option.some.inj hnclast
    have hnc2 : normalizeNewlines content =
        (normalizeNewlines content).dropLast ++ ['\n'] := by
      conv_lhs => rw [← List.dropLast_append_getLast hncne]
      rw [hlastval]
    set A := (normalizeNewlines content).dropLast with hA
    have hsplit_new : splitOnChar '\n' (normalizeNewlines content ++ (line ++ ['\n'])) =
        (splitOnChar '\n' A ++ [line]) ++ [[]] := by
      rw [hnc2]
      have h2 : (A ++ ['\n']) ++ (line ++ ['\n']) = A ++ '\n' :: (line ++ ['\n']) := by
        simp
      rw [h2, splitOnChar_append, hline]
      simp
    have hsplit_old : splitOnChar '\n' (normalizeNewlines content) =
        splitOnChar '\n' A ++ [[]] := by
      rw [hnc2]
      exact splitOnChar_concat_sep '\n' A
    simp only [fileLines, hN, hsplit_new, hsplit_old]
    simp [List.getLast?_concat, List.dropLast_concat]

/-!  Helper lemmas about the parsing functions.  -/

theorem char_isDigit_ne (c : Char) (h : c.isDigit = true) :
    ¬ c = '.' ∧ ¬ c = '-' ∧ ¬ c = '+' ∧ ¬ c = ',' ∧ ¬ c = '\n' ∧ ¬ c = '\r' := by
  refine ⟨?_, ?_, ?_, ?_, ?_, ?_⟩ <;>
    (intro hEq; rw [hEq] at h; exact absurd h (by decide))

theorem parseFloat_not_sign (s : List Char) (h1 : s.head? ≠ some '-')
    (h2 : s.head? ≠ some '+') : parseFloat s = parseUnsignedFloat s := by
  cases s with
  | nil => rfl
  | cons c r =>
    have hc1 : ¬ c = '-' := by simpa using h1
    have hc2 : ¬ c = '+' := by simpa using h2
    simp [parseFloat, hc1, hc2]

theorem parseFloat_digits (w : List Char) (hne : w ≠ [])
    (hdig : allDigits w = true) : parseFloat w = some (digitsToNat w) := by
  have hall : ∀ c ∈ w, c.isDigit = true := by
    intro c hc
    exact List.all_eq_true.mp hdig c hc
  have hsplit : splitOnChar '.' w = [w] :=
    splitOnChar_no_sep '.' w (fun c hc => (char_isDigit_ne c (hall c hc)).1)
  have hpu : parseUnsignedFloat w = some (digitsToNat w) := by
    simp only [parseUnsignedFloat, hsplit]
    simp [hne, hdig]
  rcases hw : w with _ | ⟨c, r⟩
  · exact absurd hw hne
  · have hc := hall c (by rw [hw]; simp)
    rw [← hw,
        parseFloat_not_sign w (by rw [hw]; simpa using (char_isDigit_ne c hc).2.1)
          (by rw [hw]; simpa using (char_isDigit_ne c hc).2.2.1)]
    exact hpu

theorem parseDate_split (s : List Char) (d : Int) (h : parseDate s = some d) :
    ∃ ys ms ds, splitOnChar '-' s = [ys, ms, ds] ∧ allDigits ys = true ∧
      allDigits ms = true ∧ allDigits ds = true := by
  unfold parseDate at h
  cases hsp : splitOnChar '-' s with
  | nil => rw [hsp] at h; simp at h
  | cons a t1 =>
    cases t1 with
    | nil => rw [hsp] at h; simp at h
    | cons b t2 =>
      cases t2 with
      | nil => rw [hsp] at h; simp at h
      | cons e t3 =>
        cases t3 with
        | cons f t4 => rw [hsp] at h; simp at h
        | nil =>
          rw [hsp] at h
          refine ⟨a, b, e, rfl, ?_⟩
          simp at h
          exact ⟨by tauto, by tauto, by tauto⟩

theorem parseDate_ne_nil (s : List Char) (d : Int) (h : parseDate s = some d) :
    s ≠ [] := by
  obtain ⟨ys, ms, ds, hsp, _, _, _⟩ := parseDate_split s d h
  intro hnil
  rw [hnil] at hsp
  rw [show splitOnChar '-' [] = [[]] from rfl] at hsp
  simp at hsp

theorem parseDate_chars (s : List Char) (d : Int) (h : parseDate s = some d) :
    ∀ c ∈ s, c.isDigit = true ∨ c = '-' := by
  obtain ⟨ys, ms, ds, hsp, hys, hms, hds⟩ := parseDate_split s d h
  intro c hc
  rcases mem_of_splitOnChar '-' s c hc with rfl | ⟨p, hp, hcp⟩
  · right; rfl
  · left
    rw [hsp] at hp
    simp only [List.mem_cons, List.not_mem_nil, or_false] at hp
    rcases hp with rfl | rfl | rfl
    · exact List.all_eq_true.mp hys c hcp
    · exact List.all_eq_true.mp hms c hcp
    · exact List.all_eq_true.mp hds c hcp

/-!  Helper lemmas about the row loops.  -/

theorem parseRow_none_of_length (row : List (List Char)) (h : row.length ≠ 2) :
    parseRow row = none := by
  rcases row with _ | ⟨a, _ | ⟨b, _ | ⟨c, t⟩⟩⟩
  · rfl
  · rfl
  · exact absurd rfl h
  · rfl

theorem fentonRow_none_of_length (due : ℚ) (row : List (List Char))
    (h : row.length ≠ 2) : fentonRow due row = none := by
  rcases row with _ | ⟨a, _ | ⟨b, _ | ⟨c, t⟩⟩⟩
  · rfl
  · rfl
  · exact absurd rfl h
  · rfl

theorem loadRows_skip (rs1 rs2 : List (List (List Char))) (r : List (List Char))
    (h : parseRow r = none) :
    loadRows (rs1 ++ r :: rs2) = loadRows (rs1 ++ rs2) := by
  induction rs1 with
  | nil => simp [loadRows, h]
  | cons q qs ih =>
    have ih2 : loadRows (qs.append (r :: rs2)) = loadRows (qs.append rs2) := ih
    cases hq : parseRow q with
    | none => simp only [List.cons_append, loadRows, hq, ih2]
    | some dw => simp only [List.cons_append, loadRows, hq, ih2]

theorem loadRows_concat (rs : List (List (List Char))) (r : List (List Char))
    (d : Int) (w : ℚ) (h : parseRow r = some (d, w)) :
    loadRows (rs ++ [r]) = ((loadRows rs).1 ++ [d], (loadRows rs).2 ++ [w]) := by
  induction rs with
  | nil => simp [loadRows, h]
  | cons q qs ih =>
    have ih2 : loadRows (qs.append [r]) =
        ((loadRows qs).1 ++ [d], (loadRows qs).2 ++ [w]) := ih
    cases hq : parseRow q with
    | none => simp only [List.cons_append, loadRows, hq, ih2]
    | some dw => simp only [List.cons_append, loadRows, hq, ih2]

theorem loadRows_length (rs : List (List (List Char))) :
    (loadRows rs).1.length = (loadRows rs).2.length := by
  induction rs with
  | nil => rfl
  | cons q qs ih =>
    cases hq : parseRow q with
    | none => simp only [loadRows, hq, ih]
    | some dw => simp only [loadRows, hq, List.length_cons, ih]

theorem fentonRows_skip (due : ℚ) (rs1 rs2 : List (List (List Char)))
    (r : List (List Char)) (h : fentonRow due r = none) :
    fentonRows due (rs1 ++ r :: rs2) = fentonRows due (rs1 ++ rs2) := by
  induction rs1 with
  | nil => simp [fentonRows, h]
  | cons q qs ih =>
    have ih2 : fentonRows due (qs.append (r :: rs2)) = fentonRows due (qs.append rs2) := ih
    cases hq : fentonRow due q with
    | none => simp only [List.cons_append, fentonRows, hq, ih2]
    | some dw => simp only [List.cons_append, fentonRows, hq, ih2]

/-!  Claim theorems.  -/

/-- C3: loading a store whose underlying file does not exist returns an
empty series (empty date list and empty weight list) and does not raise an
error; the `FileNotFoundError` handler of `load_data` returns the empty
pair. -/
theorem claim_C3 : loadStore none = ([], []) := rfl

/-- C9: after every call to the observed-log loader, on any file content
(or on a missing file), the returned date list and weight list have equal
length: a row never contributes a partial entry. -/
theorem claim_C9 (store : Option (List Char)) :
    (loadStore store).1.length = (loadStore store).2.length := by
  cases store with
  | none => rfl
  | some content =>
    show (load_data content).1.length = (load_data content).2.length
    simp only [load_data]
    by_cases h : (loadRows (csvRows content)).1 = []
    · simp [h]
    · simp only [if_neg h]
      exact loadRows_length (csvRows content)

/-- C7: for every nonempty numeric series and margin fraction m, the
axis-limit helper returns (min - m * range, max + m * range) with
range = max - min; compute_limits [10,20,30] 0.1 = (8, 32); a singleton
series collapses to (v, v). -/
theorem claim_C7 :
    (∀ (values : List ℚ) (m : ℚ), values ≠ [] →
      compute_limits values m =
        (listMin values - m * (listMax values - listMin values),
         listMax values + m * (listMax values - listMin values)))
    ∧ (∀ v m : ℚ, compute_limits [v] m = (v, v))
    ∧ compute_limits [10, 20, 30] (1/10) = (8, 32) := by
  refine ⟨?_, ?_, ?_⟩
  · intro values m _
    simp [compute_limits, mul_comm]
  · intro v m
    simp [compute_limits, listMin, listMax]
  · norm_num [compute_limits, listMin, listMax]

/-- Witness for C7: the general bound formula applied to the concrete
series [1, 2] with margin 1/2. -/
theorem claim_C7_witness :
    ([1, 2] : List ℚ) ≠ [] ∧
    compute_limits [1, 2] (1/2) =
      (listMin [1, 2] - (1/2) * (listMax [1, 2] - listMin [1, 2]),
       listMax [1, 2] + (1/2) * (listMax [1, 2] - listMin [1, 2])) :=
  ⟨by decide, claim_C7.1 [1, 2] (1/2) (by decide)⟩

/-- C10: the append-side weight validator accepts a string exactly when it
consists solely of decimal digit characters (and is nonempty) and the
denoted integer is strictly positive; fractional, signed and zero inputs
are rejected. -/
theorem claim_C10 :
    (∀ s : List Char, validate_weight s = true ↔
        (allDigits s = true ∧ 0 < digitsToNat s))
    ∧ validate_weight (("2500.5").toList) = false
    ∧ validate_weight (("-5").toList) = false
    ∧ validate_weight (("0").toList) = false
    ∧ validate_weight (("2500").toList) = true := by
  refine ⟨?_, by decide, by decide, by decide, by decide⟩
  intro s
  constructor
  · intro h
    simp only [validate_weight, isdigit, Bool.and_eq_true, decide_eq_true_eq] at h
    exact ⟨h.1.2, h.2⟩
  · rintro ⟨h1, h2⟩
    have hne : s ≠ [] := by
      intro hnil
      rw [hnil] at h2
      simp [digitsToNat] at h2
    simp only [validate_weight, isdigit, Bool.and_eq_true, decide_eq_true_eq]
    refine ⟨⟨?_, h1⟩, h2⟩
    simp [List.isEmpty_iff, hne]

/-- C1: a row with field count different from 2, or with a field that fails
to parse, contributes no sample in either loader, and removing such a row
from the input leaves every other row's contribution unchanged; the loaders
are total, so no row aborts a load. -/
theorem claim_C1 (due : ℚ) (rs1 rs2 : List (List (List Char)))
    (r : List (List Char)) :
    (r.length ≠ 2 → parseRow r = none ∧ fentonRow due r = none)
    ∧ (parseRow r = none →
        loadRows (rs1 ++ r :: rs2) = loadRows (rs1 ++ rs2))
    ∧ (fentonRow due r = none →
        fentonRows due (rs1 ++ r :: rs2) = fentonRows due (rs1 ++ rs2)) :=
  ⟨fun h => ⟨parseRow_none_of_length r h, fentonRow_none_of_length due r h⟩,
   fun h => loadRows_skip rs1 rs2 r h,
   fun h => fentonRows_skip due rs1 rs2 r h⟩

/-- Witness for C1: a one-field row is skipped by the observed-log loader
without affecting the surrounding valid row. -/
theorem claim_C1_witness :
    parseRow [("x").toList] = none ∧
    loadRows ([[("2024-01-01").toList, ("100").toList]] ++
        [("x").toList] :: []) =
      loadRows ([[("2024-01-01").toList, ("100").toList]] ++ []) := by
  refine ⟨?_, ?_⟩
  · exact ((claim_C1 0 [] [] [("x").toList]).1 (by decide)).1
  · exact (claim_C1 0 [[("2024-01-01").toList, ("100").toList]] []
      [("x").toList]).2.1 (by decide)

/-- C2: a syntactically valid reference row (ga, kg) yields, at the head of
the curve and in source order, a sample with weight 1000 * kg grams and
date due - (40 - ga) weeks; gestational age exactly 40 maps to the due date
itself; the rows (40, 3.5) and (38, 3.2) with due date 2024-06-01 yield
(2024-06-01, 3500) and (2024-05-18, 3200). -/
theorem claim_C2 (due : ℚ) (gaStr wStr : List Char) (ga kg : ℚ)
    (hga : parseFloat gaStr = some ga) (hw : parseFloat wStr = some kg) :
    (∀ rows, fentonRows due ([gaStr, wStr] :: rows) =
      ((due - (40 - ga) * 7) :: (fentonRows due rows).1,
       (1000 * kg) :: (fentonRows due rows).2))
    ∧ (ga = 40 → due - (40 - ga) * 7 = due)
    ∧ load_fenton_table ((daysFromCivil 2024 6 1 : Int) : ℚ)
        (("40,3.5\n38,3.2\n").toList) =
      ([((daysFromCivil 2024 6 1 : Int) : ℚ), ((daysFromCivil 2024 5 18 : Int) : ℚ)],
       [3500, 3200]) := by
  refine ⟨?_, ?_, ?_⟩
  · intro rows
    simp [fentonRows, fentonRow, hga, hw]
  · intro h40
    rw [h40]
    ring
  · have hrows : csvRows (("40,3.5\n38,3.2\n").toList) =
        [[("40").toList, ("3.5").toList], [("38").toList, ("3.2").toList]] := by
      decide
    have h40 : parseFloat ['4', '0'] = some 40 := by
      simp [parseFloat, parseUnsignedFloat, splitOnChar, allDigits, digitsToNat]
    have h35 : parseFloat ['3', '.', '5'] = some (7/2) := by
      simp [parseFloat, parseUnsignedFloat, splitOnChar, allDigits, digitsToNat]
      norm_num
    have h38 : parseFloat ['3', '8'] = some 38 := by
      simp [parseFloat, parseUnsignedFloat, splitOnChar, allDigits, digitsToNat]
    have h32 : parseFloat ['3', '.', '2'] = some (16/5) := by
      simp [parseFloat, parseUnsignedFloat, splitOnChar, allDigits, digitsToNat]
      norm_num
    have hd1 : daysFromCivil 2024 6 1 = 19875 := by decide
    have hd2 : daysFromCivil 2024 5 18 = 19861 := by decide
    rw [load_fenton_table, hrows, hd1, hd2]
    simp [fentonRows, fentonRow, h40, h35, h38, h32]
    norm_num

/-- Witness for C2: the head-of-curve equation applied to the concrete row
(40, 3.5) with due date 0. -/
theorem claim_C2_witness :
    fentonRows 0 ([[("40").toList, ("3.5").toList]]) =
      ((0 - (40 - 40) * 7) :: (fentonRows 0 []).1,
       (1000 * (7/2)) :: (fentonRows 0 []).2) :=
  (claim_C2 0 (("40").toList) (("3.5").toList) 40 (7/2)
    (by simp [parseFloat, parseUnsignedFloat, splitOnChar, allDigits, digitsToNat])
    (by simp [parseFloat, parseUnsignedFloat, splitOnChar, allDigits, digitsToNat]
        norm_num)).1 []

theorem load_fenton_data_override (tables : String → Option (List Char))
    (due : ℚ) (p : String) :
    load_fenton_data (fun q => if q = p then none else tables q) due =
      (load_fenton_data tables due).filter (fun e => !(e.1 == p)) := by
  unfold load_fenton_data
  generalize percentiles = L
  induction L with
  | nil => rfl
  | cons q L ih =>
    by_cases hq : q = p
    · subst hq
      cases hc : tables q with
      | none => simp [List.filterMap_cons, hc, ih]
      | some c => simp [List.filterMap_cons, hc, List.filter_cons, ih]
    · cases hc : tables q with
      | none => simp [List.filterMap_cons, hq, hc, ih]
      | some c => simp [List.filterMap_cons, hq, hc, List.filter_cons, ih]

theorem mem_load_fenton_data (tables : String → Option (List Char)) (due : ℚ)
    (q : String) (c : List Char) (hq : q ∈ percentiles)
    (hc : tables q = some c) :
    (q, load_fenton_table due c) ∈ load_fenton_data tables due := by
  unfold load_fenton_data
  apply List.mem_filterMap.mpr
  exact ⟨q, hq, by rw [hc]⟩

/-- C5: when one percentile's reference table is missing, that label is
absent from the result mapping, while the curves of the present percentiles
are exactly those produced when their tables are read; with all other four
tables present, each of the other four percentiles is present with its
unchanged curve. -/
theorem claim_C5 (tables : String → Option (List Char)) (due : ℚ) (p : String)
    (_hp : p ∈ percentiles)
    (hothers : ∀ q ∈ percentiles, ¬ q = p → (tables q).isSome = true) :
    load_fenton_data (fun q => if q = p then none else tables q) due =
      (load_fenton_data tables due).filter (fun e => !(e.1 == p))
    ∧ (∀ e ∈ load_fenton_data (fun q => if q = p then none else tables q) due,
        ¬ e.1 = p)
    ∧ (∀ q ∈ percentiles, ¬ q = p →
        ∃ curve,
          (q, curve) ∈ load_fenton_data (fun q2 => if q2 = p then none else tables q2) due
          ∧ (q, curve) ∈ load_fenton_data tables due) := by
  refine ⟨load_fenton_data_override tables due p, ?_, ?_⟩
  · intro e he
    rw [load_fenton_data_override tables due p] at he
    have hmem := List.mem_filter.mp he
    simpa using hmem.2
  · intro q hq hqp
    rcases Option.isSome_iff_exists.mp (hothers q hq hqp) with ⟨c, hc⟩
    refine ⟨load_fenton_table due c, ?_, ?_⟩
    · exact mem_load_fenton_data _ due q c hq (by simp [hqp, hc])
    · exact mem_load_fenton_data tables due q c hq hc

theorem loadRows_mem_snd (rs : List (List (List Char))) (w : ℚ)
    (hw : w ∈ (loadRows rs).2) :
    ∃ row ∈ rs, ∃ d, parseRow row = some (d, w) := by
  induction rs with
  | nil => simp [loadRows] at hw
  | cons q qs ih =>
    cases hq : parseRow q with
    | none =>
      simp only [loadRows, hq] at hw
      rcases ih hw with ⟨row, hrow, d, hpd⟩
      exact ⟨row, List.mem_cons_of_mem q hrow, d, hpd⟩
    | some dw =>
      simp only [loadRows, hq] at hw
      rcases List.mem_cons.mp hw with rfl | hw2
      · exact ⟨q, by simp, dw.1, by rw [hq]⟩
      · rcases ih hw2 with ⟨row, hrow, d, hpd⟩
        exact ⟨row, List.mem_cons_of_mem q hrow, d, hpd⟩

theorem fentonRows_mem_snd (due : ℚ) (rs : List (List (List Char))) (w : ℚ)
    (hw : w ∈ (fentonRows due rs).2) :
    ∃ row ∈ rs, ∃ d, fentonRow due row = some (d, w) := by
  induction rs with
  | nil => simp [fentonRows] at hw
  | cons q qs ih =>
    cases hq : fentonRow due q with
    | none =>
      simp only [fentonRows, hq] at hw
      rcases ih hw with ⟨row, hrow, d, hpd⟩
      exact ⟨row, List.mem_cons_of_mem q hrow, d, hpd⟩
    | some dw =>
      simp only [fentonRows, hq] at hw
      rcases List.mem_cons.mp hw with rfl | hw2
      · exact ⟨q, by simp, dw.1, by rw [hq]⟩
      · rcases ih hw2 with ⟨row, hrow, d, hpd⟩
        exact ⟨row, List.mem_cons_of_mem q hrow, d, hpd⟩

/-- C6 counterexample: loading a log containing the row `2024-01-01,-5`
succeeds and emits the sample with weight -5, so the series returned by the
observed-log loader can contain a negative weight; the loader does not
enforce the claimed `weight > 0` invariant. -/
theorem claim_C6_counterexample :
    (loadStore (some (("2024-01-01,-5\n").toList))).2 = [-5]
    ∧ ¬ (∀ w ∈ (loadStore (some (("2024-01-01,-5\n").toList))).2, 0 < w) := by
  have heval : (loadStore (some (("2024-01-01,-5\n").toList))).2 = [-5] := by
    rw [show ("2024-01-01,-5\n").toList =
      ['2','0','2','4','-','0','1','-','0','1',',','-','5','\n'] from rfl]
    have hrows : csvRows ['2','0','2','4','-','0','1','-','0','1',',','-','5','\n'] =
        [[['2','0','2','4','-','0','1','-','0','1'], ['-','5']]] := by decide
    have hdate : parseDate ['2','0','2','4','-','0','1','-','0','1'] = some 19723 := by
      decide
    have hfl : parseFloat ['-','5'] = some (-5) := by
      simp [parseFloat, parseUnsignedFloat, splitOnChar, allDigits, digitsToNat]
    show (load_data ['2','0','2','4','-','0','1','-','0','1',',','-','5','\n']).2 = [-5]
    unfold load_data
    rw [hrows]
    simp [loadRows, parseRow, hdate, hfl]
  refine ⟨heval, ?_⟩
  intro h
  have hneg := h (-5) (by rw [heval]; simp)
  norm_num at hneg

/-- C6 amended: every weight emitted by a loader is exactly the value parsed
from its row, so the loaded weights are all positive whenever every row that
parses successfully carries a positive weight value; the loaders themselves
do not enforce positivity. -/
theorem claim_C6_amended :
    (∀ store : Option (List Char),
      (∀ row ∈ csvRows (store.getD []), ∀ d (w : ℚ),
          parseRow row = some (d, w) → 0 < w) →
      ∀ w ∈ (loadStore store).2, 0 < w)
    ∧ (∀ (due : ℚ) (rows : List (List (List Char))),
      (∀ row ∈ rows, ∀ d (w : ℚ), fentonRow due row = some (d, w) → 0 < w) →
      ∀ w ∈ (fentonRows due rows).2, 0 < w) := by
  constructor
  · intro store hpos w hw
    cases store with
    | none => simp [loadStore] at hw
    | some content =>
      have hw2 : w ∈ (loadRows (csvRows content)).2 := by
        by_cases h0 : (loadRows (csvRows content)).1 = []
        · simp only [loadStore, load_data, if_pos h0] at hw
          simp at hw
        · simpa only [loadStore, load_data, if_neg h0] using hw
      rcases loadRows_mem_snd (csvRows content) w hw2 with ⟨row, hrow, d, hpd⟩
      exact hpos row (by simpa using hrow) d w hpd
  · intro due rows hpos w hw
    rcases fentonRows_mem_snd due rows w hw with ⟨row, hrow, d, hpd⟩
    exact hpos row hrow d w hpd

theorem record_no_newline (dateStr weightStr : List Char) (d : Int)
    (hdate : parseDate dateStr = some d) (hdig : allDigits weightStr = true) :
    ∀ c ∈ dateStr ++ ',' :: weightStr, ¬ c = '\n' ∧ ¬ c = '\r' := by
  intro c hc
  rcases List.mem_append.mp hc with hcd | hcw
  · rcases parseDate_chars dateStr d hdate c hcd with hdigc | rfl
    · have h := char_isDigit_ne c hdigc
      exact ⟨h.2.2.2.2.1, h.2.2.2.2.2⟩
    · exact ⟨by decide, by decide⟩
  · rcases List.mem_cons.mp hcw with rfl | hcw2
    · exact ⟨by decide, by decide⟩
    · have h := char_isDigit_ne c (List.all_eq_true.mp hdig c hcw2)
      exact ⟨h.2.2.2.2.1, h.2.2.2.2.2⟩

theorem fileLines_append_record (content dateStr weightStr : List Char) (d : Int)
    (hc : content = [] ∨ content.getLast? = some '\n' ∨ content.getLast? = some '\r')
    (hdate : parseDate dateStr = some d) (hdig : allDigits weightStr = true) :
    fileLines (append_store content dateStr weightStr) =
      fileLines content ++ [dateStr ++ ',' :: weightStr] := by
  have heq : append_store content dateStr weightStr =
      content ++ ((dateStr ++ ',' :: weightStr) ++ ['\r', '\n']) := by
    simp [append_store, csvLine]
  rw [heq]
  exact fileLines_append content _ hc (record_no_newline dateStr weightStr d hdate hdig)

theorem char_isDigit_ne_quote (c : Char) (h : c.isDigit = true) : ¬ c = '"' := by
  intro hEq
  rw [hEq] at h
  exact absurd h (by decide)

theorem csvParseAux_startRecord_acc (f : List Char) (r : List (List Char))
    (input : List Char) :
    csvParseAux CsvState.startRecord f r input =
      csvParseAux CsvState.startRecord [] [] input := by
  cases input with
  | nil => rfl
  | cons c rest => rfl

theorem csvParseAux_append (input : List Char) :
    ∀ (s : CsvState) (f : List Char) (r : List (List Char)) (more : List Char),
    (csvRun s f r input).1 = CsvState.startRecord →
    csvParseAux s f r (input ++ more) =
      csvParseAux s f r input ++ csvParseAux CsvState.startRecord [] [] more := by
  induction input with
  | nil =>
    intro s f r more h
    simp only [csvRun] at h
    subst h
    rw [List.nil_append,
        show csvParseAux CsvState.startRecord f r [] = ([] : List (List (List Char)))
          from rfl,
        List.nil_append]
    exact csvParseAux_startRecord_acc f r more
  | cons c input ih =>
    intro s f r more h
    simp only [csvRun] at h
    simp only [List.cons_append, csvParseAux]
    have ih2 : csvParseAux (csvStep s f r c).2.1 (csvStep s f r c).2.2.1
        (csvStep s f r c).2.2.2 (input.append more) =
      csvParseAux (csvStep s f r c).2.1 (csvStep s f r c).2.2.1
        (csvStep s f r c).2.2.2 input ++ csvParseAux CsvState.startRecord [] [] more :=
      ih _ _ _ more h
    rw [ih2, List.append_assoc]

theorem csvParseAux_inField_accum (dcs : List Char) :
    ∀ (f : List Char) (r : List (List Char)) (rest : List Char),
    (∀ c ∈ dcs, ¬ c = ',' ∧ ¬ c = '\n') →
    csvParseAux CsvState.inField f r (dcs ++ rest) =
      csvParseAux CsvState.inField (f ++ dcs) r rest := by
  induction dcs with
  | nil =>
    intro f r rest _
    simp
  | cons c d2 ih =>
    intro f r rest h
    have hc := h c (by simp)
    have hstep : csvStep CsvState.inField f r c = ([], CsvState.inField, f ++ [c], r) := by
      simp [csvStep, hc.1, hc.2]
    simp only [List.cons_append, csvParseAux, hstep, List.nil_append]
    have ih2 : csvParseAux CsvState.inField (f ++ [c]) r (d2.append rest) =
        csvParseAux CsvState.inField ((f ++ [c]) ++ d2) r rest :=
      ih (f ++ [c]) r rest (fun x hx => h x (by simp [hx]))
    rw [ih2]
    simp

theorem csvParse_record (dateStr weightStr : List Char) (d : Int)
    (hdate : parseDate dateStr = some d) (hdig : allDigits weightStr = true)
    (hwne : weightStr ≠ []) :
    csvParseAux CsvState.startRecord [] [] ((dateStr ++ ',' :: weightStr) ++ ['\n']) =
      [[dateStr, weightStr]] := by
  have hdchars : ∀ c ∈ dateStr, ¬ c = ',' ∧ ¬ c = '\n' := by
    intro c hc
    rcases parseDate_chars dateStr d hdate c hc with hdigc | rfl
    · have h1 := char_isDigit_ne c hdigc
      exact ⟨h1.2.2.2.1, h1.2.2.2.2.1⟩
    · exact ⟨by decide, by decide⟩
  have hwchars : ∀ c ∈ weightStr, ¬ c = ',' ∧ ¬ c = '\n' := by
    intro c hc
    have h1 := char_isDigit_ne c (List.all_eq_true.mp hdig c hc)
    exact ⟨h1.2.2.2.1, h1.2.2.2.2.1⟩
  obtain ⟨c0, dRest, rfl⟩ := List.exists_cons_of_ne_nil (parseDate_ne_nil dateStr d hdate)
  obtain ⟨w0, wRest, rfl⟩ := List.exists_cons_of_ne_nil hwne
  have hc0 := hdchars c0 (by simp)
  have hc0q : ¬ c0 = '"' := by
    rcases parseDate_chars _ d hdate c0 (by simp) with hdigc | rfl
    · exact char_isDigit_ne_quote c0 hdigc
    · decide
  have hw0 := hwchars w0 (by simp)
  have hw0q : ¬ w0 = '"' :=
    char_isDigit_ne_quote w0 (List.all_eq_true.mp hdig w0 (by simp))
  have hstep0 : csvStep CsvState.startRecord [] [] c0 =
      ([], CsvState.inField, [c0], []) := by
    simp [csvStep, hc0.1, hc0.2, hc0q]
  have hstep1 : csvStep CsvState.inField (c0 :: dRest) [] ',' =
      ([], CsvState.startField, [], [c0 :: dRest]) := by
    simp [csvStep]
  have hstep2 : csvStep CsvState.startField [] [c0 :: dRest] w0 =
      ([], CsvState.inField, [w0], [c0 :: dRest]) := by
    simp [csvStep, hw0.1, hw0.2, hw0q]
  have hstep3 : csvStep CsvState.inField (w0 :: wRest) [c0 :: dRest] '\n' =
      ([[c0 :: dRest, w0 :: wRest]], CsvState.startRecord, [], []) := by
    simp [csvStep]
  calc csvParseAux CsvState.startRecord [] [] (((c0 :: dRest) ++ ',' :: (w0 :: wRest)) ++ ['\n'])
      = csvParseAux CsvState.startRecord [] []
          (c0 :: (dRest ++ ',' :: (w0 :: (wRest ++ ['\n'])))) := by
        congr 1
        simp
    _ = csvParseAux CsvState.inField [c0] [] (dRest ++ ',' :: (w0 :: (wRest ++ ['\n']))) := by
        simp [csvParseAux, hstep0]
    _ = csvParseAux CsvState.inField (c0 :: dRest) [] (',' :: (w0 :: (wRest ++ ['\n']))) := by
        have hacc := csvParseAux_inField_accum dRest [c0] []
          (',' :: (w0 :: (wRest ++ ['\n']))) (fun x hx => hdchars x (by simp [hx]))
        simpa using hacc
    _ = csvParseAux CsvState.startField [] [c0 :: dRest] (w0 :: (wRest ++ ['\n'])) := by
        simp [csvParseAux, hstep1]
    _ = csvParseAux CsvState.inField [w0] [c0 :: dRest] (wRest ++ ['\n']) := by
        simp [csvParseAux, hstep2]
    _ = csvParseAux CsvState.inField (w0 :: wRest) [c0 :: dRest] ['\n'] := by
        have hacc := csvParseAux_inField_accum wRest [w0] [c0 :: dRest]
          ['\n'] (fun x hx => hwchars x (by simp [hx]))
        simpa using hacc
    _ = [[c0 :: dRest, w0 :: wRest]] := by
        simp [csvParseAux, hstep3, csvFlush]

theorem csvRows_append_record (content dateStr weightStr : List Char) (d : Int)
    (hend : (csvRun CsvState.startRecord [] [] (normalizeNewlines content)).1 =
      CsvState.startRecord)
    (hdate : parseDate dateStr = some d) (hdig : allDigits weightStr = true)
    (hwne : weightStr ≠ []) :
    csvRows (append_store content dateStr weightStr) =
      csvRows content ++ [[dateStr, weightStr]] := by
  have hl := record_no_newline dateStr weightStr d hdate hdig
  have hN : normalizeNewlines (append_store content dateStr weightStr) =
      normalizeNewlines content ++ ((dateStr ++ ',' :: weightStr) ++ ['\n']) := by
    have heq : append_store content dateStr weightStr =
        content ++ ((dateStr ++ ',' :: weightStr) ++ ['\r', '\n']) := by
      simp [append_store, csvLine]
    rw [heq]
    have hheadR : ((dateStr ++ ',' :: weightStr) ++ ['\r', '\n'] : List Char).head? ≠
        some '\n' := by
      cases dateStr with
      | nil => simp
      | cons a t => simpa using (hl a (by simp)).1
    rw [normalizeNewlines_append content _ hheadR,
        normalizeNewlines_append (dateStr ++ ',' :: weightStr) ['\r', '\n'] (by simp),
        normalizeNewlines_of_no_cr _ (fun c hc => (hl c hc).2)]
    rfl
  show csvParseAux CsvState.startRecord [] []
      (normalizeNewlines (append_store content dateStr weightStr)) = _
  rw [hN, csvParseAux_append (normalizeNewlines content) _ _ _ _ hend,
      csvParse_record dateStr weightStr d hdate hdig hwne]
  rfl

/-- C4 counterexample: the round trip fails on valid-looking stores in two
ways.  Appending the valid record 2024-05-01, 200 to the unterminated store
`2024-01-01,100` merges both records into one three-field line, so the load
returns the empty series instead of the old sample followed by the new one;
and appending it to the newline-terminated store consisting of the single
line `"abc` (an unterminated quoted field) lets the quoted field absorb the
appended record, so that load also returns the empty series. -/
theorem claim_C4_counterexample :
    parseDate (("2024-05-01").toList) = some (daysFromCivil 2024 5 1)
    ∧ validate_weight (("200").toList) = true
    ∧ loadStore (some (append_store (("2024-01-01,100").toList)
        (("2024-05-01").toList) (("200").toList))) = ([], [])
    ∧ ¬ (loadStore (some (append_store (("2024-01-01,100").toList)
          (("2024-05-01").toList) (("200").toList))) =
        ((loadStore (some (("2024-01-01,100").toList))).1 ++ [daysFromCivil 2024 5 1],
         (loadStore (some (("2024-01-01,100").toList))).2 ++
           [(digitsToNat (("200").toList) : ℚ)]))
    ∧ loadStore (some (append_store (("\"abc\n").toList)
        (("2024-05-01").toList) (("200").toList))) = ([], [])
    ∧ ¬ (loadStore (some (append_store (("\"abc\n").toList)
          (("2024-05-01").toList) (("200").toList))) =
        ((loadStore (some (("\"abc\n").toList))).1 ++ [daysFromCivil 2024 5 1],
         (loadStore (some (("\"abc\n").toList))).2 ++
           [(digitsToNat (("200").toList) : ℚ)])) := by
  have hL1 : loadStore (some (append_store (("2024-01-01,100").toList)
      (("2024-05-01").toList) (("200").toList))) = ([], []) := by
    have hrows : csvRows (append_store (("2024-01-01,100").toList)
        (("2024-05-01").toList) (("200").toList)) =
        [[['2','0','2','4','-','0','1','-','0','1'],
          ['1','0','0','2','0','2','4','-','0','5','-','0','1'], ['2','0','0']]] := by
      decide
    show load_data (append_store (("2024-01-01,100").toList)
      (("2024-05-01").toList) (("200").toList)) = ([], [])
    unfold load_data
    rw [hrows]
    simp [loadRows, parseRow]
  have hL2 : loadStore (some (append_store (("\"abc\n").toList)
      (("2024-05-01").toList) (("200").toList))) = ([], []) := by
    have hrows : csvRows (append_store (("\"abc\n").toList)
        (("2024-05-01").toList) (("200").toList)) =
        [[['a','b','c','\n','2','0','2','4','-','0','5','-','0','1',',','2','0','0','\n']]] := by
      decide
    show load_data (append_store (("\"abc\n").toList)
      (("2024-05-01").toList) (("200").toList)) = ([], [])
    unfold load_data
    rw [hrows]
    simp [loadRows, parseRow]
  refine ⟨by decide, by decide, hL1, ?_, hL2, ?_⟩
  · intro h
    rw [hL1] at h
    have h1 := congrArg Prod.fst h
    simp at h1
  · intro h
    rw [hL2] at h
    have h1 := congrArg Prod.fst h
    simp at h1

/-- C4 amended: the round trip holds for every prior store content that
ends at a CSV record boundary, meaning the csv reader state machine
finishes the prior content back at the start of a record (the content is
empty, or its final newline lies outside an unterminated quoted field):
appending a record with a valid date and a validator-accepted weight and
then loading yields exactly the series loaded from the prior content, with
one additional sample at the end carrying that date and that weight in
grams.  Excluded are stores whose last line is unterminated, where the
appended record merges with that line, and stores ending inside an
unterminated quoted field, where the quoted field absorbs the appended
record. -/
theorem claim_C4_amended (content dateStr weightStr : List Char) (d : Int)
    (hend : (csvRun CsvState.startRecord [] [] (normalizeNewlines content)).1 =
      CsvState.startRecord)
    (hdate : parseDate dateStr = some d)
    (hweight : validate_weight weightStr = true) :
    loadStore (some (append_store content dateStr weightStr)) =
      ((loadStore (some content)).1 ++ [d],
       (loadStore (some content)).2 ++ [(digitsToNat weightStr : ℚ)]) := by
  simp only [validate_weight, isdigit, Bool.and_eq_true, decide_eq_true_eq] at hweight
  obtain ⟨⟨hwne0, hdig⟩, hwpos⟩ := hweight
  have hwne : weightStr ≠ [] := by
    intro hnil
    rw [hnil] at hwne0
    simp at hwne0
  have hfloat : parseFloat weightStr = some (digitsToNat weightStr) :=
    parseFloat_digits weightStr hwne hdig
  have hrow : parseRow [dateStr, weightStr] = some (d, (digitsToNat weightStr : ℚ)) := by
    simp [parseRow, hdate, hfloat]
  have hrows := csvRows_append_record content dateStr weightStr d hend hdate hdig hwne
  have hload := loadRows_concat (csvRows content) [dateStr, weightStr] d
      (digitsToNat weightStr) hrow
  show load_data (append_store content dateStr weightStr) = _
  simp only [load_data, hrows, hload]
  rw [if_neg (by simp)]
  show _ = ((load_data content).1 ++ [d],
    (load_data content).2 ++ [(digitsToNat weightStr : ℚ)])
  by_cases h0 : (loadRows (csvRows content)).1 = []
  · have h02 : (loadRows (csvRows content)).2 = [] := by
      have hlen := loadRows_length (csvRows content)
      rw [h0] at hlen
      exact List.length_eq_zero.mp (by simpa using hlen.symm)
    simp [load_data, h0, h02]
  · simp [load_data, h0]

/-- Witness for C4: appending 2024-05-01, 200 to a newline-terminated store
holding one complete sample record and loading returns the old sample
followed by the new one. -/
theorem claim_C4_witness :
    loadStore (some (append_store (("2024-01-01,100\n").toList)
        (("2024-05-01").toList) (("200").toList))) =
      ((loadStore (some (("2024-01-01,100\n").toList))).1 ++ [daysFromCivil 2024 5 1],
       (loadStore (some (("2024-01-01,100\n").toList))).2 ++
         [(digitsToNat (("200").toList) : ℚ)]) :=
  claim_C4_amended (("2024-01-01,100\n").toList) (("2024-05-01").toList)
    (("200").toList) (daysFromCivil 2024 5 1) (by decide) (by decide) (by decide)

/-- C8 counterexample: appending to a store whose last line is unterminated
does not leave the prior lines unmodified: the single prior line of
`2024-01-01,100` is replaced by a merged line, not followed by a new one. -/
theorem claim_C8_counterexample :
    fileLines (("2024-01-01,100").toList) = [("2024-01-01,100").toList]
    ∧ fileLines (append_store (("2024-01-01,100").toList) (("2024-05-01").toList)
        (("200").toList)) = [("2024-01-01,1002024-05-01,200").toList]
    ∧ ¬ (fileLines (append_store (("2024-01-01,100").toList) (("2024-05-01").toList)
          (("200").toList)) =
        fileLines (("2024-01-01,100").toList) ++
          [("2024-05-01").toList ++ ',' :: ("200").toList]) := by
  refine ⟨by decide, by decide, by decide⟩

/-- C8 amended: for every prior store content that is empty or ends in a
newline character (LF or CR), the store after appending a validated record
consists of exactly the prior lines, unmodified and in order, followed by
one new line encoding the record; prior contents with an unterminated last
line are excluded, since there the new record merges with that line. -/
theorem claim_C8_amended (content dateStr weightStr : List Char) (d : Int)
    (hc : content = [] ∨ content.getLast? = some '\n' ∨ content.getLast? = some '\r')
    (hdate : parseDate dateStr = some d)
    (hweight : validate_weight weightStr = true) :
    fileLines (append_store content dateStr weightStr) =
      fileLines content ++ [dateStr ++ ',' :: weightStr] := by
  have hdig : allDigits weightStr = true := by
    simp only [validate_weight, isdigit, Bool.and_eq_true] at hweight
    exact hweight.1.2
  exact fileLines_append_record content dateStr weightStr d hc hdate hdig

/-- Witness for C8: appending to a newline-terminated one-line store yields
exactly the old line followed by the new record line. -/
theorem claim_C8_witness :
    fileLines (append_store (("2024-01-01,100\n").toList) (("2024-05-01").toList)
        (("200").toList)) =
      fileLines (("2024-01-01,100\n").toList) ++
        [("2024-05-01").toList ++ ',' :: ("200").toList] :=
  claim_C8_amended (("2024-01-01,100\n").toList) (("2024-05-01").toList)
    (("200").toList) (daysFromCivil 2024 5 1) (by decide) (by decide) (by decide)

/-- Witness for C5: with all five tables present (and empty), removing the
table of the 3 percent percentile leaves exactly the other four curves. -/
theorem claim_C5_witness :
    ("3%" : String) ∈ percentiles ∧
    load_fenton_data
        (fun q => if q = "3%" then none else (fun _ : String => some ([] : List Char)) q) 0 =
      (load_fenton_data (fun _ : String => some ([] : List Char)) 0).filter
        (fun e => !(e.1 == "3%")) :=
  ⟨by decide,
   (claim_C5 (fun _ : String => some ([] : List Char)) 0 "3%" (by decide)
     (fun q hq hqp => by simp)).1⟩

/-- Witness for C6: loading a log whose single row carries the positive
weight 2500 yields only positive weights. -/
theorem claim_C6_amended_witness :
    ∀ w ∈ (loadStore (some (("2024-01-01,2500\n").toList))).2, 0 < w := by
  apply claim_C6_amended.1
  intro row hrow d w hpw
  have hrows : csvRows ((some (("2024-01-01,2500\n").toList)).getD []) =
      [[['2','0','2','4','-','0','1','-','0','1'], ['2','5','0','0']]] := by decide
  rw [hrows] at hrow
  simp only [List.mem_singleton] at hrow
  subst hrow
  have hpr : parseRow [['2','0','2','4','-','0','1','-','0','1'], ['2','5','0','0']] =
      some (19723, (2500 : ℚ)) := by
    have hdate2 : parseDate ['2','0','2','4','-','0','1','-','0','1'] = some 19723 := by
      decide
    have hfl : parseFloat ['2','5','0','0'] = some 2500 := by
      simp [parseFloat, parseUnsignedFloat, splitOnChar, allDigits, digitsToNat]
    simp [parseRow, hdate2, hfl]
  rw [hpr] at hpw
  have hinj := Option.some.inj hpw
  cases hinj
  norm_num

/-- Witness for C10: the validator characterization applied to the concrete
weight string 7. -/
theorem claim_C10_witness :
    validate_weight (("7").toList) = true ↔
      (allDigits (("7").toList) = true ∧ 0 < digitsToNat (("7").toList)) :=
  claim_C10.1 (("7").toList)
